import Mathlib

/-!
# Verification of the qtapputils background task worker and task manager

This file gives a shallow embedding of the task queueing and dispatch core of
the `qtapputils` repository:

* `WorkerBase` embeds `qtapputils/widgets/workers.py` (the class `WorkerBase`
  with its `add_task` and `run_tasks` methods and the `sig_task_completed`
  signal), translated directly from the Python source.
* `TaskManagerBase` models the manager component.  Its Python source file is
  not part of the source tree (only its test suite
  `qtapputils/widgets/tests/test_taskmanagers.py` refers to it), so the
  manager is modelled from the specification's state machine.

Python-side conventions used by the embedding:

* Python values are embedded as `PyVal`; an exception raised by an operation
  or an attribute lookup failure is a `PyExc`.
* An `OrderedDict` keyed by UUIDs is embedded as an association list
  `List (Nat × α)` together with the assignment operation `odSet`, which
  replicates Python dict assignment: assigning to an existing key replaces
  the value in place (keeping the key's original position), assigning to a
  fresh key appends it at the end.
* The worker's instance attribute table (which `getattr(self, '_' + task)`
  consults) is embedded as the `attrs` field, an association list from
  attribute names to callables; `sig_task_completed.emit(...)` calls are
  collected into an event list in emission order.
-/

namespace QtAppUtils

/-- Atomic embedded Python values. -/
inductive PyAtom where
  | int (n : Int)
  | str (s : String)
  | pynone
deriving DecidableEq, Repr, BEq

/-- Embedded Python values (the fragment needed by the worker/manager core):
atoms, and lists/tuples of atoms.  Task arguments are embedded as atoms; in
particular the `args` tuple delivered for a task with no operation name is a
`pytuple`. -/
inductive PyVal where
  | atom (a : PyAtom)
  | pylist (xs : List PyAtom)
  | pytuple (xs : List PyAtom)
deriving DecidableEq, Repr, BEq

/-- Embedded Python exceptions: `AttributeError` raised by
`getattr(self, '_' + task)` when the attribute is missing (the spec's
`UnknownOperation`), and an arbitrary exception raised by an operation body
(the spec's `OperationFailure`). -/
inductive PyExc where
  | attributeError (name : String)
  | opError (msg : String)
deriving DecidableEq, Repr, BEq

/-- An embedded Python callable used as a worker operation: it receives the
positional arguments and the keyword arguments and either returns a value or
raises. -/
def PyOp : Type := List PyAtom → List (String × PyAtom) → Except PyExc PyVal

/-- One entry of the worker's `_tasks` stack: the tuple
`(task, args, kargs)` stored by `WorkerBase.add_task`. -/
structure TaskEntry where
  /-- The `task` component: the operation name, or `None`. -/
  task : Option String
  /-- The positional arguments `args`. -/
  args : List PyAtom
  /-- The keyword arguments `kargs`. -/
  kargs : List (String × PyAtom)

/-- Python dict assignment `d[k] = v` on an ordered dict embedded as an
association list: replace in place when the key is present, append when it
is fresh. -/
def odSet {α : Type} (d : List (Nat × α)) (k : Nat) (v : α) : List (Nat × α) :=
  if k ∈ d.map Prod.fst then
    d.map (fun p => if p.1 = k then (k, v) else p)
  else d ++ [(k, v)]

/-- Association-list lookup (Python dict lookup `d[k]`, `None` when absent). -/
def odGet {α : Type} (d : List (Nat × α)) (k : Nat) : Option α :=
  (d.find? (fun p => p.1 = k)).map Prod.snd

/-- String-keyed analogue of `odSet` (Python attribute assignment on the
instance `__dict__`). -/
def strSet {α : Type} (d : List (String × α)) (k : String) (v : α) : List (String × α) :=
  if k ∈ d.map Prod.fst then
    d.map (fun p => if p.1 = k then (k, v) else p)
  else d ++ [(k, v)]

/-- String-keyed analogue of `odGet`. -/
def strGet {α : Type} (d : List (String × α)) (k : String) : Option α :=
  (d.find? (fun p => p.1 = k)).map Prod.snd

/-- Embedding of the `WorkerBase` class of `qtapputils/widgets/workers.py`.
`tasks` embeds the `_tasks` ordered dict; `attrs` embeds the worker
instance's attribute table holding the operation callables (the tests inject
them as `worker._get_something = ...`). -/
structure WorkerBase where
  /-- The instance attributes holding operation callables, keyed by the full
  attribute name (so an operation `get_something` lives under the key
  `"_get_something"`). -/
  attrs : List (String × PyOp)
  /-- The `_tasks` ordered dict, keyed by the task uuid. -/
  tasks : List (Nat × TaskEntry)

/-- Embedding of `WorkerBase.__init__`: `self._tasks = OrderedDict()` (a fresh worker with
a given attribute table and an empty task stack). -/
def WorkerBase.init (attrs : List (String × PyOp)) : WorkerBase :=
  { attrs := attrs, tasks := [] }

/-- Embedding of `WorkerBase.add_task(self, task_uuid4, task, *args, **kargs)`:
`self._tasks[task_uuid4] = (task, args, kargs)`. -/
def WorkerBase.add_task (w : WorkerBase) (task_uuid4 : Nat) (task : Option String)
    (args : List PyAtom) (kargs : List (String × PyAtom)) : WorkerBase :=
  { w with tasks := odSet w.tasks task_uuid4 ⟨task, args, kargs⟩ }

/-- Embedding of Python `getattr(self, name)` restricted to the operation
attributes: `none` means the lookup raises `AttributeError`. -/
def WorkerBase.getattr (w : WorkerBase) (name : String) : Option PyOp :=
  strGet w.attrs name

/-- The value produced for one task by the body of the `run_tasks` loop:
if `task is not None`, resolve `getattr(self, '_' + task)` and call it with
`args`/`kargs` (an absent attribute raises `AttributeError`); otherwise the
returned values are the `args` tuple itself. -/
def WorkerBase.taskResult (w : WorkerBase) (e : TaskEntry) : Except PyExc PyVal :=
  match e.task with
  | some name =>
    match w.getattr ("_" ++ name) with
    | none => Except.error (PyExc.attributeError ("_" ++ name))
    | some f => f e.args e.kargs
  | none => Except.ok (PyVal.pytuple e.args)

/-- Result of one `run_tasks` invocation: the `sig_task_completed` emissions
in order, the worker state after the call, whether `self.thread().quit()`
was reached, and the exception that propagated out of the loop, if any. -/
structure RunOutcome where
  /-- The `sig_task_completed.emit(task_uuid4, returned_values)` events, in
  emission order. -/
  emitted : List (Nat × PyVal)
  /-- The worker after the call. -/
  worker : WorkerBase
  /-- Whether `self.thread().quit()` was executed. -/
  quitCalled : Bool
  /-- The Python exception that escaped `run_tasks`, if any. -/
  exc : Option PyExc

/-- The `for` loop of `run_tasks`: execute the entries in order, collecting
emissions, stopping (with the exception) at the first entry whose execution
raises. -/
def WorkerBase.runLoop (w : WorkerBase) :
    List (Nat × TaskEntry) → List (Nat × PyVal) → Option PyExc × List (Nat × PyVal)
  | [], acc => (none, acc)
  | (task_uuid4, e) :: rest, acc =>
    match w.taskResult e with
    | Except.error ex => (some ex, acc)
    | Except.ok v => w.runLoop rest (acc ++ [(task_uuid4, v)])

/-- Embedding of `WorkerBase.run_tasks`: iterate over `self._tasks.items()`
executing each entry and emitting `sig_task_completed`; when the loop
completes, reset `self._tasks = OrderedDict()` and call
`self.thread().quit()`.  An exception raised by an operation (or by the
attribute lookup) propagates out of the method: the emissions made so far
stand, `_tasks` is left untouched and `quit` is never reached. -/
def WorkerBase.run_tasks (w : WorkerBase) : RunOutcome :=
  match w.runLoop w.tasks [] with
  | (none, acc) => ⟨acc, { w with tasks := [] }, true, none⟩
  | (some ex, acc) => ⟨acc, w, false, some ex⟩

/-- Python attribute assignment `worker._<name> = fn` — the way the
repository's tests associate an operation callable with its name
(`worker._get_something = _get_something` in `test_taskmanagers.py`): the
callable is stored in the instance attribute table under `'_' + name`. -/
def WorkerBase.set_operation (w : WorkerBase) (name : String) (f : PyOp) : WorkerBase :=
  { w with attrs := strSet w.attrs ("_" ++ name) f }

/-!
## The task manager

Modelled from the spec: the Python class `TaskManagerBase` (referred to by
`qtapputils/widgets/tests/test_taskmanagers.py` and exported from
`qtapputils.widgets`) is not present in the source tree, so the manager below
follows the specification's §3/§4.2 state machine word for word:

* three disjoint ordered collections `queued`, `pending`, `running`;
* `add_task` creates a task with a fresh unique id and appends it to
  `pending` when a batch is currently running, to `queued` otherwise;
* `dispatch` (the spec's name for `run_tasks`) moves all of `queued` into
  `running` and emits `run_tasks_started` when idle with a non-empty queue,
  and is a no-op with respect to starting work while a batch is running;
* the worker's batch-finished event clears `running`, delivers one
  `task_completed` per task of the batch (in batch order), and then either
  promotes the backlog (`pending`, moved through `queued`) straight into a
  new running batch (auto-chaining, which per P3/P4 re-emits no
  `run_tasks_started`), or — on final drain — emits `run_tasks_finished`.

The manager is `running` exactly when the `running` collection is non-empty,
so the state-machine state is derived (`busy`) rather than stored.
-/

/-- Modelled from the spec: a manager task — an operation name (or none),
an optional callback (tracked as a flag) and the positional arguments. -/
structure MgrTask where
  /-- The `operation_name` (`none` delivers the arguments directly). -/
  op : Option String
  /-- Whether a result callback was supplied. -/
  hasCallback : Bool
  /-- The positional arguments. -/
  args : List PyAtom
deriving DecidableEq, Repr, BEq

/-- Modelled from the spec: the manager's state — the fresh-id counter and
the three task collections. -/
structure TaskManagerBase where
  /-- Source of fresh task ids (the embedding of `uuid.uuid4()` freshness). -/
  nextId : Nat
  /-- Tasks submitted since the last dispatch, not yet handed to the worker. -/
  queued : List (Nat × MgrTask)
  /-- Tasks submitted while a batch was executing. -/
  pending : List (Nat × MgrTask)
  /-- Tasks currently handed to the background execution context. -/
  running : List (Nat × MgrTask)
deriving Repr

/-- The manager is in the `running` state exactly while a batch (a non-empty
`running` collection) is executing. -/
def TaskManagerBase.busy (s : TaskManagerBase) : Bool :=
  !s.running.isEmpty

/-- A fresh manager: empty collections, no ids handed out. -/
def TaskManagerBase.init : TaskManagerBase :=
  ⟨0, [], [], []⟩

/-- Observable events of the manager model: task submission (recording the
fresh id returned by `add_task`), the `run_tasks_started` and
`run_tasks_finished` signals, and the delivery of a task's result. -/
inductive MgrEvent where
  | submitted (id : Nat)
  | started
  | finished
  | taskCompleted (id : Nat)
deriving DecidableEq, Repr

/-- The actions driving the manager: the two external calls `add_task` and
`dispatch`, and the internal batch-finished event posted by the worker when
the running batch has been fully executed. -/
inductive MgrAction where
  | addTask (t : MgrTask)
  | dispatch
  | batchFinish
deriving DecidableEq, Repr

/-- Modelled from the spec: one step of the manager state machine, returning
the new state and the events emitted by the step.

* `addTask t`: assigns the fresh id `nextId`, appends to `pending` when
  `running`, to `queued` when idle; never blocks or fails.
* `dispatch`: when idle with non-empty `queued`, moves all of `queued` into
  `running` and emits `run_tasks_started`; otherwise a no-op.
* `batchFinish`: only meaningful while a batch runs.  Emits one
  `task_completed` per running task in batch order, empties `running`, and
  promotes the backlog (`queued ++ pending` — `queued` is empty in every
  reachable busy state) through `queued` into a new running batch without
  re-emitting `run_tasks_started`; when there is no backlog the drain is
  final and `run_tasks_finished` is emitted. -/
def mgrStep (s : TaskManagerBase) : MgrAction → TaskManagerBase × List MgrEvent
  | MgrAction.addTask t =>
    let id := s.nextId
    if s.busy then
      ({ s with nextId := id + 1, pending := s.pending ++ [(id, t)] },
        [MgrEvent.submitted id])
    else
      ({ s with nextId := id + 1, queued := s.queued ++ [(id, t)] },
        [MgrEvent.submitted id])
  | MgrAction.dispatch =>
    if !s.busy && !s.queued.isEmpty then
      ({ s with queued := [], running := s.queued }, [MgrEvent.started])
    else
      (s, [])
  | MgrAction.batchFinish =>
    if s.busy then
      let completions := s.running.map (fun p => MgrEvent.taskCompleted p.1)
      let backlog := s.queued ++ s.pending
      if backlog.isEmpty then
        ({ s with running := [] }, completions ++ [MgrEvent.finished])
      else
        ({ s with queued := [], pending := [], running := backlog }, completions)
    else
      (s, [])

/-- Run a list of actions from a state, concatenating the emitted events. -/
def mgrRun (s : TaskManagerBase) : List MgrAction → TaskManagerBase × List MgrEvent
  | [] => (s, [])
  | a :: rest =>
    let p := mgrStep s a
    let q := mgrRun p.1 rest
    (q.1, p.2 ++ q.2)

/-- Predicate stating that `chainBusy s acts` holds when every intermediate state reached while
performing `acts` from `s` — the state after every proper non-empty prefix —
is still `running`; the state after the full list is unconstrained.  This
carves out a single drain cycle: the manager never returns to idle before
the last action. -/
def chainBusy (s : TaskManagerBase) : List MgrAction → Bool
  | [] => true
  | a :: rest =>
    (rest.isEmpty || (mgrStep s a).1.busy) && chainBusy (mgrStep s a).1 rest

/-!
## The spec's registration interface

The specification (§4.1, §6) describes the worker's operation table through
an explicit interface `register_operation(name, function)` — "an explicit
mapping from operation name to a typed function handle, populated at
setup/registration time" (§9).  The definitions below follow the spec's
words; they are compared with the source's mechanism (attribute assignment
plus `getattr(self, '_' + task)`) by the refinement theorem for that claim.
-/

/-- Following the spec's words: the explicit operation registry. -/
structure OperationRegistry where
  /-- The mapping from operation name to callable. -/
  registry : List (String × PyOp)

/-- Following the spec's words: `register_operation(name, function)`
"associates a string key with a callable". -/
def OperationRegistry.register_operation (r : OperationRegistry) (name : String)
    (f : PyOp) : OperationRegistry :=
  ⟨strSet r.registry name f⟩

/-- Following the spec's words: resolving an `operation_name` through the
registered mapping (`none` when the name was never registered). -/
def OperationRegistry.resolve (r : OperationRegistry) (name : String) : Option PyOp :=
  strGet r.registry name

/-- Apply a list of `register_operation` calls in order. -/
def OperationRegistry.registerAll (r : OperationRegistry)
    (regs : List (String × PyOp)) : OperationRegistry :=
  regs.foldl (fun r p => r.register_operation p.1 p.2) r

/-- Apply a list of operation-attribute assignments to a worker in order. -/
def WorkerBase.setAll (w : WorkerBase) (regs : List (String × PyOp)) : WorkerBase :=
  regs.foldl (fun w p => w.set_operation p.1 p.2) w

/-!
## Association-list lemmas
-/

theorem map_fst_repl {α : Type} (d : List (Nat × α)) (k : Nat) (v : α) :
    (d.map (fun p => if p.1 = k then (k, v) else p)).map Prod.fst = d.map Prod.fst := by
  rw [List.map_map]
  apply List.map_congr_left
  intro p _
  by_cases hk : p.1 = k
  · simp [hk]
  · simp [hk]

theorem odSet_map_fst {α : Type} (d : List (Nat × α)) (k : Nat) (v : α) :
    (odSet d k v).map Prod.fst =
      if k ∈ d.map Prod.fst then d.map Prod.fst else d.map Prod.fst ++ [k] := by
  unfold odSet
  split
  · exact map_fst_repl d k v
  · simp

theorem odSet_keys_nodup {α : Type} (d : List (Nat × α)) (k : Nat) (v : α)
    (h : (d.map Prod.fst).Nodup) : ((odSet d k v).map Prod.fst).Nodup := by
  rw [odSet_map_fst]
  split
  · exact h
  · next hk => simp [List.nodup_append, h, hk]

theorem mem_odSet_keys {α : Type} (d : List (Nat × α)) (k : Nat) (v : α) :
    k ∈ (odSet d k v).map Prod.fst := by
  rw [odSet_map_fst]
  split
  · assumption
  · simp

theorem filter_of_not_mem_keys {α : Type} (d : List (Nat × α)) (k : Nat)
    (h : k ∉ d.map Prod.fst) : d.filter (fun p => p.1 = k) = [] := by
  rw [List.filter_eq_nil_iff]
  intro p hp
  simp only [decide_eq_true_eq]
  intro hpk
  exact h (List.mem_map.mpr ⟨p, hp, hpk⟩)

theorem repl_filter_self {α : Type} (d : List (Nat × α)) (k : Nat) (v : α)
    (hn : (d.map Prod.fst).Nodup) (hm : k ∈ d.map Prod.fst) :
    (d.map (fun p => if p.1 = k then (k, v) else p)).filter (fun p => p.1 = k)
      = [(k, v)] := by
  induction d with
  | nil => simp at hm
  | cons a rest ih =>
    simp only [List.map_cons, List.nodup_cons] at hn
    by_cases hk : a.1 = k
    · have hnk : k ∉ rest.map Prod.fst := hk ▸ hn.1
      have hrest : (rest.map (fun p => if p.1 = k then (k, v) else p)).filter
          (fun p => p.1 = k) = [] := by
        apply filter_of_not_mem_keys
        rw [map_fst_repl]
        exact hnk
      simp [hk, List.filter_cons, hrest]
    · have hm' : k ∈ rest.map Prod.fst := by
        simp only [List.map_cons, List.mem_cons] at hm
        rcases hm with h | h
        · exact absurd h.symm hk
        · exact h
      simp [hk, List.filter_cons, ih hn.2 hm']

theorem odGet_eq_none_iff {α : Type} (d : List (Nat × α)) (k : Nat) :
    odGet d k = none ↔ k ∉ d.map Prod.fst := by
  unfold odGet
  rw [Option.map_eq_none', List.find?_eq_none]
  constructor
  · intro h hk
    rcases List.mem_map.mp hk with ⟨p, hp, hpk⟩
    have hthis := h p hp
    simp only [decide_eq_true_eq] at hthis
    exact hthis hpk
  · intro h p hp
    simp only [decide_eq_true_eq]
    intro hpk
    exact h (List.mem_map.mpr ⟨p, hp, hpk⟩)

theorem strGet_eq_none_iff {α : Type} (d : List (String × α)) (k : String) :
    strGet d k = none ↔ k ∉ d.map Prod.fst := by
  unfold strGet
  rw [Option.map_eq_none', List.find?_eq_none]
  constructor
  · intro h hk
    rcases List.mem_map.mp hk with ⟨p, hp, hpk⟩
    have hthis := h p hp
    simp only [decide_eq_true_eq] at hthis
    exact hthis hpk
  · intro h p hp
    simp only [decide_eq_true_eq]
    intro hpk
    exact h (List.mem_map.mpr ⟨p, hp, hpk⟩)

theorem mem_strSet_keys {α : Type} (d : List (String × α)) (k m : String) (v : α) :
    m ∈ (strSet d k v).map Prod.fst ↔ m ∈ d.map Prod.fst ∨ m = k := by
  unfold strSet
  split
  · next hk =>
    have : (d.map (fun p => if p.1 = k then (k, v) else p)).map Prod.fst
        = d.map Prod.fst := by
      rw [List.map_map]
      apply List.map_congr_left
      intro p _
      by_cases hpk : p.1 = k
      · simp [hpk]
      · simp [hpk]
    rw [this]
    constructor
    · exact Or.inl
    · rintro (h | rfl)
      · exact h
      · exact hk
  · simp

/-!
## Correspondence between the registry and the attribute table
-/

/-- The attribute table induced by a registry: each registered operation
`name` lives under the instance attribute `'_' + name`. -/
def prefixOps (l : List (String × PyOp)) : List (String × PyOp) :=
  l.map (fun p => ("_" ++ p.1, p.2))

theorem underscore_inj {a b : String} (h : "_" ++ a = "_" ++ b) : a = b := by
  have h2 := congrArg String.data h
  simp [String.data_append] at h2
  exact String.ext h2

theorem mem_prefixOps_keys (l : List (String × PyOp)) (k : String) :
    ("_" ++ k) ∈ (prefixOps l).map Prod.fst ↔ k ∈ l.map Prod.fst := by
  unfold prefixOps
  rw [List.map_map]
  constructor
  · intro h
    rcases List.mem_map.mp h with ⟨p, hp, hpk⟩
    exact List.mem_map.mpr ⟨p, hp, underscore_inj hpk⟩
  · intro h
    rcases List.mem_map.mp h with ⟨p, hp, hpk⟩
    exact List.mem_map.mpr ⟨p, hp, by simp [hpk]⟩

theorem strSet_prefixOps (l : List (String × PyOp)) (k : String) (v : PyOp) :
    strSet (prefixOps l) ("_" ++ k) v = prefixOps (strSet l k v) := by
  unfold strSet
  rw [if_congr (mem_prefixOps_keys l k) rfl rfl]
  split
  · unfold prefixOps
    rw [List.map_map, List.map_map]
    apply List.map_congr_left
    intro p _
    by_cases hpk : p.1 = k
    · simp [hpk]
    · have : ¬("_" ++ p.1 = "_" ++ k) := fun h => hpk (underscore_inj h)
      simp [hpk, this]
  · simp [prefixOps]

theorem strGet_prefixOps (l : List (String × PyOp)) (k : String) :
    strGet (prefixOps l) ("_" ++ k) = strGet l k := by
  induction l with
  | nil => rfl
  | cons a rest ih =>
    by_cases hk : a.1 = k
    · simp [strGet, prefixOps, List.find?, hk]
    · have : ¬("_" ++ a.1 = "_" ++ k) := fun h => hk (underscore_inj h)
      simp only [strGet, prefixOps, List.map_cons, List.find?, hk, this,
        decide_eq_true_eq, decide_False] at ih ⊢
      simpa [strGet, prefixOps] using ih

theorem setAll_attrs_registerAll : ∀ (regs : List (String × PyOp))
    (w : WorkerBase) (r : OperationRegistry), w.attrs = prefixOps r.registry →
    (w.setAll regs).attrs = prefixOps ((r.registerAll regs).registry)
    ∧ (w.setAll regs).tasks = w.tasks := by
  intro regs
  induction regs with
  | nil => exact fun w r h => ⟨h, rfl⟩
  | cons a rest ih =>
    intro w r h
    have hstep : (w.set_operation a.1 a.2).attrs
        = prefixOps ((r.register_operation a.1 a.2).registry) := by
      unfold WorkerBase.set_operation OperationRegistry.register_operation
      simp only [h]
      exact strSet_prefixOps r.registry a.1 a.2
    have := ih (w.set_operation a.1 a.2) (r.register_operation a.1 a.2) hstep
    exact ⟨this.1, this.2⟩

theorem registerAll_keys : ∀ (regs : List (String × PyOp)) (r : OperationRegistry)
    (m : String), m ∈ ((r.registerAll regs).registry.map Prod.fst) ↔
      m ∈ r.registry.map Prod.fst ∨ m ∈ regs.map Prod.fst := by
  intro regs
  induction regs with
  | nil => simp [OperationRegistry.registerAll]
  | cons a rest ih =>
    intro r m
    have step : (OperationRegistry.registerAll r (a :: rest))
        = OperationRegistry.registerAll (r.register_operation a.1 a.2) rest := rfl
    rw [step, ih]
    unfold OperationRegistry.register_operation
    rw [mem_strSet_keys]
    simp only [List.map_cons, List.mem_cons]
    tauto

/-!
## Worker execution lemmas
-/

/-- The relation between one `sig_task_completed` emission and the task
entry that produced it: same uuid, and the emitted value is the value the
entry's execution returned. -/
def EmitsFor (w : WorkerBase) (em : Nat × PyVal) (tk : Nat × TaskEntry) : Prop :=
  em.1 = tk.1 ∧ w.taskResult tk.2 = Except.ok em.2

theorem odSet_of_not_mem {α : Type} (d : List (Nat × α)) (k : Nat) (v : α)
    (h : k ∉ d.map Prod.fst) : odSet d k v = d ++ [(k, v)] := by
  unfold odSet
  exact if_neg h

theorem runLoop_none (w : WorkerBase) : ∀ (ts : List (Nat × TaskEntry))
    (acc out : List (Nat × PyVal)), w.runLoop ts acc = (none, out) →
    ∃ ems, out = acc ++ ems ∧ List.Forall₂ (EmitsFor w) ems ts := by
  intro ts
  induction ts with
  | nil =>
    intro acc out h
    simp only [WorkerBase.runLoop, Prod.mk.injEq] at h
    exact ⟨[], by simp [h.2], List.Forall₂.nil⟩
  | cons a rest ih =>
    intro acc out h
    obtain ⟨id, e⟩ := a
    simp only [WorkerBase.runLoop] at h
    cases hres : w.taskResult e with
    | error ex =>
      rw [hres] at h
      simp at h
    | ok v =>
      rw [hres] at h
      obtain ⟨ems, hout, hf⟩ := ih (acc ++ [(id, v)]) out h
      exact ⟨(id, v) :: ems, by simp [hout], List.Forall₂.cons ⟨rfl, hres⟩ hf⟩

theorem runLoop_append_ok (w : WorkerBase) : ∀ (pre rest : List (Nat × TaskEntry))
    (acc : List (Nat × PyVal)), (∀ p ∈ pre, ∃ v, w.taskResult p.2 = Except.ok v) →
    ∃ ems, List.Forall₂ (EmitsFor w) ems pre ∧
      w.runLoop (pre ++ rest) acc = w.runLoop rest (acc ++ ems) := by
  intro pre
  induction pre with
  | nil =>
    intro rest acc _
    exact ⟨[], List.Forall₂.nil, by simp⟩
  | cons a pre' ih =>
    intro rest acc hok
    obtain ⟨id, e⟩ := a
    obtain ⟨v, hv⟩ := hok (id, e) (List.mem_cons_self _ _)
    have hok' : ∀ p ∈ pre', ∃ v, w.taskResult p.2 = Except.ok v :=
      fun p hp => hok p (List.mem_cons_of_mem _ hp)
    obtain ⟨ems, hf, hrun⟩ := ih rest (acc ++ [(id, v)]) hok'
    refine ⟨(id, v) :: ems, List.Forall₂.cons ⟨rfl, hv⟩ hf, ?_⟩
    have hacc : (acc ++ [(id, v)]) ++ ems = acc ++ ((id, v) :: ems) := by simp
    simp only [List.cons_append, WorkerBase.runLoop, hv, List.append_eq]
    rw [hrun, hacc]

theorem runLoop_error_head (w : WorkerBase) (id : Nat) (e : TaskEntry)
    (rest : List (Nat × TaskEntry)) (acc : List (Nat × PyVal)) (ex : PyExc)
    (h : w.taskResult e = Except.error ex) :
    w.runLoop ((id, e) :: rest) acc = (some ex, acc) := by
  simp only [WorkerBase.runLoop, h]

theorem forall2_map_fst (w : WorkerBase) {ems : List (Nat × PyVal)}
    {ts : List (Nat × TaskEntry)} (h : List.Forall₂ (EmitsFor w) ems ts) :
    ems.map Prod.fst = ts.map Prod.fst := by
  induction h with
  | nil => rfl
  | cons h1 _ ih => simp [h1.1, ih]

theorem forall2_filter_key (w : WorkerBase) {ems : List (Nat × PyVal)}
    {ts : List (Nat × TaskEntry)} (id : Nat) (e : TaskEntry)
    (h : List.Forall₂ (EmitsFor w) ems ts) (hn : (ts.map Prod.fst).Nodup)
    (hfil : ts.filter (fun p => p.1 = id) = [(id, e)]) :
    ∃ v, w.taskResult e = Except.ok v ∧
      ems.filter (fun q => q.1 = id) = [(id, v)] := by
  induction h with
  | nil => simp at hfil
  | @cons em tk ems' ts' h1 h2 ih =>
    simp only [List.map_cons, List.nodup_cons] at hn
    by_cases hk : tk.1 = id
    · have hfil' : ts'.filter (fun p => p.1 = id) = [] := by
        apply filter_of_not_mem_keys
        exact hk ▸ hn.1
      rw [List.filter_cons, if_pos (by simpa using hk), hfil'] at hfil
      have htk : tk = (id, e) := by simpa using hfil
      have hem1 : em.1 = id := by rw [h1.1, hk]
      refine ⟨em.2, ?_, ?_⟩
      · have := h1.2
        rw [htk] at this
        exact this
      · have hems' : ems'.filter (fun q => q.1 = id) = [] := by
          apply filter_of_not_mem_keys
          rw [forall2_map_fst w h2]
          exact hk ▸ hn.1
        rw [List.filter_cons, if_pos (by simpa using hem1), hems']
        have : em = (id, em.2) := Prod.ext hem1 rfl
        rw [← this]
    · have hem1 : ¬(em.1 = id) := by rw [h1.1]; exact hk
      rw [List.filter_cons, if_neg (by simpa using hk)] at hfil
      rw [List.filter_cons, if_neg (by simpa using hem1)]
      exact ih hn.2 hfil

/-- Tasks accumulated by a sequence of `add_task` calls with pairwise fresh
uuids: the `_tasks` dict lists them in submission order. -/
theorem addAll_tasks : ∀ (entries : List (Nat × TaskEntry)) (w : WorkerBase),
    (w.tasks.map Prod.fst ++ entries.map Prod.fst).Nodup →
    (entries.foldl (fun w p => w.add_task p.1 p.2.task p.2.args p.2.kargs) w).tasks
      = w.tasks ++ entries := by
  intro entries
  induction entries with
  | nil => intro w _; simp
  | cons a entries' ih =>
    intro w hn
    have hfresh : a.1 ∉ w.tasks.map Prod.fst := by
      intro hmem
      have := (List.nodup_append.mp hn).2.2
      exact this hmem (by simp)
    have hstep : (w.add_task a.1 a.2.task a.2.args a.2.kargs).tasks
        = w.tasks ++ [(a.1, a.2)] := by
      unfold WorkerBase.add_task
      simp only
      rw [odSet_of_not_mem _ _ _ hfresh]
    have hn' : ((w.add_task a.1 a.2.task a.2.args a.2.kargs).tasks.map Prod.fst
        ++ entries'.map Prod.fst).Nodup := by
      rw [hstep]
      simp only [List.map_append, List.map_cons, List.map_nil] at hn ⊢
      simpa [List.append_assoc] using hn
    have := ih (w.add_task a.1 a.2.task a.2.args a.2.kargs) hn'
    simp only [List.foldl_cons]
    rw [this, hstep]
    simp

/-- Full case analysis of one `run_tasks` call: either no exception escaped —
then the task stack was reset, the thread was asked to quit, and the
emissions cover the whole batch — or an exception escaped, and the worker
state is untouched with no quit. -/
theorem run_tasks_cases (w : WorkerBase) :
    (w.run_tasks.exc = none ∧ w.run_tasks.worker = { w with tasks := [] }
      ∧ w.run_tasks.quitCalled = true
      ∧ List.Forall₂ (EmitsFor w) w.run_tasks.emitted w.tasks)
    ∨ (∃ ex, w.run_tasks.exc = some ex ∧ w.run_tasks.worker = w
      ∧ w.run_tasks.quitCalled = false) := by
  unfold WorkerBase.run_tasks
  cases hl : w.runLoop w.tasks [] with
  | mk o acc =>
    cases o with
    | none =>
      left
      obtain ⟨ems, hout, hf⟩ := runLoop_none w w.tasks [] acc hl
      simp only [List.nil_append] at hout
      subst hout
      exact ⟨rfl, rfl, rfl, hf⟩
    | some ex =>
      right
      exact ⟨ex, rfl, rfl, rfl⟩

theorem mem_nodup_filter {α : Type} : ∀ (ts : List (Nat × α)) (p : Nat × α),
    (ts.map Prod.fst).Nodup → p ∈ ts →
    ts.filter (fun q => q.1 = p.1) = [p] := by
  intro ts
  induction ts with
  | nil => intro p _ hp; simp at hp
  | cons a rest ih =>
    intro p hn hp
    simp only [List.map_cons, List.nodup_cons] at hn
    rcases List.mem_cons.mp hp with rfl | hp'
    · have : rest.filter (fun q => q.1 = p.1) = [] :=
        filter_of_not_mem_keys rest p.1 hn.1
      simp [List.filter_cons, this]
    · have hk : ¬(a.1 = p.1) := by
        intro h
        exact hn.1 (h ▸ List.mem_map.mpr ⟨p, hp', rfl⟩)
      rw [List.filter_cons, if_neg (by simpa using hk)]
      exact ih p hn.2 hp'

/-!
## The claims about the worker
-/

/-- Claim C3: when the worker runs a batch (and the batch completes without an
exception escaping), exactly one `task_completed(task_id, result)` event is
emitted for every task of the batch, where `result` is the return value of
the invoked operation applied to the task's arguments when `operation_name`
is set, and is the arguments tuple itself when `operation_name` is `None`. -/
theorem worker_task_completed_events (w : WorkerBase)
    (hok : w.run_tasks.exc = none) (hn : (w.tasks.map Prod.fst).Nodup) :
    List.Forall₂ (fun (em : Nat × PyVal) (tk : Nat × TaskEntry) =>
        em.1 = tk.1 ∧
        ((∃ name f, tk.2.task = some name ∧ w.getattr ("_" ++ name) = some f ∧
            f tk.2.args tk.2.kargs = Except.ok em.2) ∨
          (tk.2.task = none ∧ em.2 = PyVal.pytuple tk.2.args)))
      w.run_tasks.emitted w.tasks
    ∧ ∀ p ∈ w.tasks,
        (w.run_tasks.emitted.filter (fun q => q.1 = p.1)).length = 1 := by
  rcases run_tasks_cases w with ⟨_, _, _, hf⟩ | ⟨ex, hex, _, _⟩
  · constructor
    · refine hf.imp ?_
      intro em tk hr
      refine ⟨hr.1, ?_⟩
      rcases htk : tk.2.task with _ | name
      · right
        refine ⟨rfl, ?_⟩
        have := hr.2
        unfold WorkerBase.taskResult at this
        rw [htk] at this
        simpa using this.symm
      · left
        have := hr.2
        unfold WorkerBase.taskResult at this
        rw [htk] at this
        simp only at this
        cases hg : w.getattr ("_" ++ name) with
        | none =>
          rw [hg] at this
          simp at this
        | some f =>
          rw [hg] at this
          simp only at this
          exact ⟨name, f, rfl, hg, this⟩
    · intro p hp
      have hfil := mem_nodup_filter w.tasks p hn hp
      obtain ⟨v, _, hems⟩ := forall2_filter_key w p.1 p.2 hf hn (by simpa using hfil)
      rw [hems]
      rfl
  · rw [hok] at hex
    exact absurd hex (by simp)

/-- Claim C4: for every batch the worker runs (successfully), the
`task_completed` events — and hence the task executions producing them —
occur strictly in the order the tasks were added to the worker, with no
reordering. -/
theorem worker_batch_order (attrs : List (String × PyOp))
    (entries : List (Nat × TaskEntry)) (hn : (entries.map Prod.fst).Nodup) :
    (entries.foldl (fun w p => w.add_task p.1 p.2.task p.2.args p.2.kargs)
        (WorkerBase.init attrs)).run_tasks.exc = none →
    (entries.foldl (fun w p => w.add_task p.1 p.2.task p.2.args p.2.kargs)
        (WorkerBase.init attrs)).run_tasks.emitted.map Prod.fst
      = entries.map Prod.fst := by
  intro hok
  have htasks : (entries.foldl (fun w p => w.add_task p.1 p.2.task p.2.args p.2.kargs)
      (WorkerBase.init attrs)).tasks = entries := by
    have := addAll_tasks entries (WorkerBase.init attrs) (by simpa [WorkerBase.init])
    simpa [WorkerBase.init] using this
  rcases run_tasks_cases (entries.foldl
      (fun w p => w.add_task p.1 p.2.task p.2.args p.2.kargs)
      (WorkerBase.init attrs)) with ⟨_, _, _, hf⟩ | ⟨ex, hex, _, _⟩
  · rw [forall2_map_fst _ hf, htasks]
  · rw [hok] at hex
    exact absurd hex (by simp)

/-- Claim C6: after the worker has executed the full batch without an
exception, its execution context terminates: the task stack is left empty
and the hosting thread is asked to quit (the combination the source
implements by `self._tasks = OrderedDict()` followed by
`self.thread().quit()`, whose thread-finished notification plays the role of
the `batch_finished` event). -/
theorem worker_batch_termination (w : WorkerBase) (hok : w.run_tasks.exc = none) :
    w.run_tasks.worker.tasks = [] ∧ w.run_tasks.quitCalled = true := by
  rcases run_tasks_cases w with ⟨_, hw, hq, _⟩ | ⟨ex, hex, _, _⟩
  · rw [hw, hq]
    exact ⟨rfl, rfl⟩
  · rw [hok] at hex
    exact absurd hex (by simp)

/-- Claim C7: `add_task` never fails for an unknown operation name — the entry
is stored unconditionally — and the failure surfaces only when the worker
resolves `'_' + name` at execution time, as an attribute lookup error (the
spec's `UnknownOperation`). -/
theorem worker_unknown_operation (w : WorkerBase) (id : Nat) (name : String)
    (args : List PyAtom) (kargs : List (String × PyAtom))
    (hattr : w.getattr ("_" ++ name) = none) (hempty : w.tasks = []) :
    (w.add_task id (some name) args kargs).tasks
      = [(id, ⟨some name, args, kargs⟩)]
    ∧ (w.add_task id (some name) args kargs).run_tasks.exc
      = some (PyExc.attributeError ("_" ++ name))
    ∧ (w.add_task id (some name) args kargs).run_tasks.emitted = []
    ∧ (w.add_task id (some name) args kargs).run_tasks.worker
      = w.add_task id (some name) args kargs := by
  have htasks : (w.add_task id (some name) args kargs).tasks
      = [(id, ⟨some name, args, kargs⟩)] := by
    unfold WorkerBase.add_task
    rw [hempty]
    simp [odSet]
  have hres : (w.add_task id (some name) args kargs).taskResult
      ⟨some name, args, kargs⟩
      = Except.error (PyExc.attributeError ("_" ++ name)) := by
    unfold WorkerBase.taskResult
    simp only
    have : (w.add_task id (some name) args kargs).getattr ("_" ++ name) = none :=
      hattr
    rw [this]
  have hloop : (w.add_task id (some name) args kargs).runLoop
      [(id, ⟨some name, args, kargs⟩)] []
      = (some (PyExc.attributeError ("_" ++ name)), []) :=
    runLoop_error_head _ id _ [] [] _ hres
  refine ⟨htasks, ?_, ?_, ?_⟩ <;>
    · unfold WorkerBase.run_tasks
      rw [htasks, hloop]

/-- Claim C9: if an operation invoked by `run_tasks` raises, the batch aborts
at that point — no `task_completed` is emitted for the failing task or for
any later task, the `_tasks` stack is left unchanged, and the hosting thread
is never asked to quit. -/
theorem worker_exception_aborts_batch (w : WorkerBase)
    (pre post : List (Nat × TaskEntry)) (id : Nat) (e : TaskEntry)
    (name : String) (f : PyOp) (ex : PyExc)
    (hts : w.tasks = pre ++ (id, e) :: post)
    (hn : (w.tasks.map Prod.fst).Nodup)
    (htask : e.task = some name)
    (hf : w.getattr ("_" ++ name) = some f)
    (hex : f e.args e.kargs = Except.error ex)
    (hpre : ∀ p ∈ pre, ∃ v, w.taskResult p.2 = Except.ok v) :
    w.run_tasks.exc = some ex
    ∧ w.run_tasks.emitted.map Prod.fst = pre.map Prod.fst
    ∧ (∀ q ∈ w.run_tasks.emitted, q.1 ≠ id ∧ q.1 ∉ post.map Prod.fst)
    ∧ w.run_tasks.worker = w
    ∧ w.run_tasks.quitCalled = false := by
  have hres : w.taskResult e = Except.error ex := by
    unfold WorkerBase.taskResult
    rw [htask]
    simp only
    rw [hf]
    exact hex
  obtain ⟨ems, hfor, hrun⟩ := runLoop_append_ok w pre ((id, e) :: post) [] hpre
  have hloop : w.runLoop w.tasks [] = (some ex, ems) := by
    rw [hts, hrun]
    simp only [List.nil_append]
    exact runLoop_error_head w id e post ems ex hres
  have hout : w.run_tasks = ⟨ems, w, false, some ex⟩ := by
    unfold WorkerBase.run_tasks
    rw [hloop]
  have hkeys : w.run_tasks.emitted.map Prod.fst = pre.map Prod.fst := by
    rw [hout]
    exact forall2_map_fst w hfor
  refine ⟨by rw [hout], hkeys, ?_, by rw [hout], by rw [hout]⟩
  intro q hq
  have hqk : q.1 ∈ pre.map Prod.fst := by
    rw [← hkeys]
    exact List.mem_map.mpr ⟨q, hq, rfl⟩
  rw [hts] at hn
  simp only [List.map_append, List.map_cons] at hn
  have hd := (List.nodup_append.mp hn).2.2
  constructor
  · intro hqid
    exact hd hqk (by simp [hqid])
  · intro hqpost
    exact hd hqk (by simp [hqpost])

/-- Claim C10: calling `add_task` twice with the same uuid replaces the
earlier entry's operation and arguments in place — the key order of the
stack is unchanged, and the only entry stored under the uuid is the
later-supplied one — so a subsequent successful `run_tasks` executes that
uuid exactly once, with the later-supplied operation and arguments. -/
theorem worker_add_task_same_id (w : WorkerBase) (id : Nat)
    (t1 t2 : Option String) (a1 a2 : List PyAtom)
    (k1 k2 : List (String × PyAtom)) (hn : (w.tasks.map Prod.fst).Nodup) :
    ((w.add_task id t1 a1 k1).add_task id t2 a2 k2).tasks.map Prod.fst
      = (w.add_task id t1 a1 k1).tasks.map Prod.fst
    ∧ ((w.add_task id t1 a1 k1).add_task id t2 a2 k2).tasks.filter
        (fun p => p.1 = id) = [(id, ⟨t2, a2, k2⟩)]
    ∧ (((w.add_task id t1 a1 k1).add_task id t2 a2 k2).run_tasks.exc = none →
        ∃ v, ((w.add_task id t1 a1 k1).add_task id t2 a2 k2).taskResult
            ⟨t2, a2, k2⟩ = Except.ok v ∧
          ((w.add_task id t1 a1 k1).add_task id t2 a2 k2).run_tasks.emitted.filter
            (fun q => q.1 = id) = [(id, v)]) := by
  have hmem1 : id ∈ (w.add_task id t1 a1 k1).tasks.map Prod.fst := by
    unfold WorkerBase.add_task
    exact mem_odSet_keys w.tasks id _
  have hn1 : ((w.add_task id t1 a1 k1).tasks.map Prod.fst).Nodup := by
    unfold WorkerBase.add_task
    exact odSet_keys_nodup w.tasks id _ hn
  have hkeys : ((w.add_task id t1 a1 k1).add_task id t2 a2 k2).tasks.map Prod.fst
      = (w.add_task id t1 a1 k1).tasks.map Prod.fst := by
    show (odSet (w.add_task id t1 a1 k1).tasks id ⟨t2, a2, k2⟩).map Prod.fst = _
    rw [odSet_map_fst, if_pos hmem1]
  have hfil : ((w.add_task id t1 a1 k1).add_task id t2 a2 k2).tasks.filter
      (fun p => p.1 = id) = [(id, ⟨t2, a2, k2⟩)] := by
    show (odSet (w.add_task id t1 a1 k1).tasks id ⟨t2, a2, k2⟩).filter
      (fun p => p.1 = id) = _
    unfold odSet
    rw [if_pos hmem1]
    exact repl_filter_self _ id _ hn1 hmem1
  have hn2 : (((w.add_task id t1 a1 k1).add_task id t2 a2 k2).tasks.map
      Prod.fst).Nodup := by
    rw [hkeys]
    exact hn1
  refine ⟨hkeys, hfil, ?_⟩
  intro hok
  rcases run_tasks_cases ((w.add_task id t1 a1 k1).add_task id t2 a2 k2) with
    ⟨_, _, _, hfor⟩ | ⟨ex, hex, _, _⟩
  · exact forall2_filter_key _ id _ hfor hn2 hfil
  · rw [hok] at hex
    exact absurd hex (by simp)

/-- Claim C8: the worker's operation table implements the spec's
`register_operation(name, function)` interface.  Registering a list of
operations (realised in the source by assigning the worker attribute
`'_' + name`, exactly as the repository's tests do) builds the registered
mapping: execution-time resolution of a task's `operation_name` goes through
precisely that mapping — the registered callable is invoked when the name
was registered, a lookup failure is raised otherwise — and a name resolves
if and only if it was registered. -/
theorem worker_register_operation_refinement (regs : List (String × PyOp))
    (name : String) (args : List PyAtom) (kargs : List (String × PyAtom))
    (ts : List (Nat × TaskEntry)) :
    (WorkerBase.setAll ⟨[], ts⟩ regs).getattr ("_" ++ name)
      = (OperationRegistry.registerAll ⟨[]⟩ regs).resolve name
    ∧ ((OperationRegistry.registerAll ⟨[]⟩ regs).resolve name = none
        ↔ name ∉ regs.map Prod.fst)
    ∧ (WorkerBase.setAll ⟨[], ts⟩ regs).taskResult ⟨some name, args, kargs⟩
      = ((OperationRegistry.registerAll ⟨[]⟩ regs).resolve name).elim
          (Except.error (PyExc.attributeError ("_" ++ name)))
          (fun f => f args kargs) := by
  have hattrs := (setAll_attrs_registerAll regs ⟨[], ts⟩ ⟨[]⟩
    (by simp [prefixOps])).1
  have h1 : (WorkerBase.setAll ⟨[], ts⟩ regs).getattr ("_" ++ name)
      = (OperationRegistry.registerAll ⟨[]⟩ regs).resolve name := by
    unfold WorkerBase.getattr OperationRegistry.resolve
    rw [hattrs]
    exact strGet_prefixOps _ name
  refine ⟨h1, ?_, ?_⟩
  · unfold OperationRegistry.resolve
    rw [strGet_eq_none_iff]
    constructor
    · intro h hmem
      exact h ((registerAll_keys regs ⟨[]⟩ name).mpr (Or.inr hmem))
    · intro h hmem
      rcases (registerAll_keys regs ⟨[]⟩ name).mp hmem with h0 | h0
      · simp at h0
      · exact h h0
  · unfold WorkerBase.taskResult
    simp only
    cases hres : (OperationRegistry.registerAll ⟨[]⟩ regs).resolve name with
    | none =>
      rw [h1, hres]
      rfl
    | some f =>
      rw [h1, hres]
      rfl

/-!
## Concrete witnesses for the worker claims
-/

/-- A concrete operation: adds two integer arguments. -/
def addOp : PyOp := fun args _ =>
  match args with
  | [PyAtom.int a, PyAtom.int b] => Except.ok (PyVal.atom (PyAtom.int (a + b)))
  | _ => Except.error (PyExc.opError "bad arguments")

/-- A concrete operation that always raises. -/
def boomOp : PyOp := fun _ _ => Except.error (PyExc.opError "boom")

/-- A concrete attribute table: operations `add` and `boom`. -/
def demoAttrs : List (String × PyOp) := [("_add", addOp), ("_boom", boomOp)]

/-- Two concrete task entries: one named operation, one bare-arguments task. -/
def demoEntries : List (Nat × TaskEntry) :=
  [(0, ⟨some "add", [PyAtom.int 1, PyAtom.int 2], []⟩),
    (1, ⟨none, [PyAtom.int 7], []⟩)]

/-- A concrete worker holding `demoEntries`. -/
def demoWorker : WorkerBase := ⟨demoAttrs, demoEntries⟩

/-- A concrete worker whose middle task raises. -/
def demoFailWorker : WorkerBase :=
  ⟨demoAttrs,
    [(0, ⟨none, [PyAtom.int 1], []⟩),
      (1, ⟨some "boom", [], []⟩),
      (2, ⟨none, [], []⟩)]⟩

/-- Witness for the C3 theorem at `demoWorker`. -/
theorem worker_task_completed_events_witness :
    demoWorker.run_tasks.exc = none
    ∧ (demoWorker.tasks.map Prod.fst).Nodup
    ∧ (List.Forall₂ (fun (em : Nat × PyVal) (tk : Nat × TaskEntry) =>
          em.1 = tk.1 ∧
          ((∃ name f, tk.2.task = some name ∧
              demoWorker.getattr ("_" ++ name) = some f ∧
              f tk.2.args tk.2.kargs = Except.ok em.2) ∨
            (tk.2.task = none ∧ em.2 = PyVal.pytuple tk.2.args)))
        demoWorker.run_tasks.emitted demoWorker.tasks
      ∧ ∀ p ∈ demoWorker.tasks,
          (demoWorker.run_tasks.emitted.filter (fun q => q.1 = p.1)).length = 1) :=
  ⟨rfl, by decide, worker_task_completed_events demoWorker rfl (by decide)⟩

/-- Witness for the C4 theorem at `demoEntries`. -/
theorem worker_batch_order_witness :
    (demoEntries.map Prod.fst).Nodup
    ∧ (demoEntries.foldl (fun w p => w.add_task p.1 p.2.task p.2.args p.2.kargs)
        (WorkerBase.init demoAttrs)).run_tasks.exc = none
    ∧ (demoEntries.foldl (fun w p => w.add_task p.1 p.2.task p.2.args p.2.kargs)
        (WorkerBase.init demoAttrs)).run_tasks.emitted.map Prod.fst
      = demoEntries.map Prod.fst :=
  ⟨by decide, rfl, worker_batch_order demoAttrs demoEntries (by decide) rfl⟩

/-- Witness for the C6 theorem at `demoWorker`. -/
theorem worker_batch_termination_witness :
    demoWorker.run_tasks.exc = none
    ∧ demoWorker.run_tasks.worker.tasks = []
    ∧ demoWorker.run_tasks.quitCalled = true :=
  ⟨rfl, worker_batch_termination demoWorker rfl⟩

/-- Witness for the C7 theorem: submitting the unregistered name `ghost`. -/
theorem worker_unknown_operation_witness :
    (WorkerBase.init demoAttrs).getattr ("_" ++ "ghost") = none
    ∧ (WorkerBase.init demoAttrs).tasks = []
    ∧ (((WorkerBase.init demoAttrs).add_task 5 (some "ghost") [] []).tasks
        = [(5, ⟨some "ghost", [], []⟩)]
      ∧ ((WorkerBase.init demoAttrs).add_task 5 (some "ghost") [] []).run_tasks.exc
        = some (PyExc.attributeError ("_" ++ "ghost"))
      ∧ ((WorkerBase.init demoAttrs).add_task 5 (some "ghost") [] []).run_tasks.emitted
        = []
      ∧ ((WorkerBase.init demoAttrs).add_task 5 (some "ghost") [] []).run_tasks.worker
        = (WorkerBase.init demoAttrs).add_task 5 (some "ghost") [] []) :=
  ⟨rfl, rfl, worker_unknown_operation (WorkerBase.init demoAttrs) 5 "ghost" [] [] rfl rfl⟩

/-- Witness for the C9 theorem at `demoFailWorker`: the `boom` task aborts
the batch after the first task. -/
theorem worker_exception_aborts_batch_witness :
    demoFailWorker.tasks
      = [((0 : Nat), (⟨none, [PyAtom.int 1], []⟩ : TaskEntry))]
        ++ (1, ⟨some "boom", [], []⟩) :: [(2, ⟨none, [], []⟩)]
    ∧ (demoFailWorker.tasks.map Prod.fst).Nodup
    ∧ (⟨some "boom", [], []⟩ : TaskEntry).task = some "boom"
    ∧ demoFailWorker.getattr ("_" ++ "boom") = some boomOp
    ∧ boomOp [] [] = Except.error (PyExc.opError "boom")
    ∧ (∀ p ∈ [((0 : Nat), (⟨none, [PyAtom.int 1], []⟩ : TaskEntry))],
        ∃ v, demoFailWorker.taskResult p.2 = Except.ok v)
    ∧ (demoFailWorker.run_tasks.exc = some (PyExc.opError "boom")
      ∧ demoFailWorker.run_tasks.emitted.map Prod.fst
        = [((0 : Nat), (⟨none, [PyAtom.int 1], []⟩ : TaskEntry))].map Prod.fst
      ∧ (∀ q ∈ demoFailWorker.run_tasks.emitted,
          q.1 ≠ 1 ∧ q.1 ∉ [((2 : Nat), (⟨none, [], []⟩ : TaskEntry))].map Prod.fst)
      ∧ demoFailWorker.run_tasks.worker = demoFailWorker
      ∧ demoFailWorker.run_tasks.quitCalled = false) :=
  ⟨rfl, by decide, rfl, rfl, rfl,
    fun p hp => by
      simp only [List.mem_singleton] at hp
      subst hp
      exact ⟨PyVal.pytuple [PyAtom.int 1], rfl⟩,
    worker_exception_aborts_batch demoFailWorker
      [(0, ⟨none, [PyAtom.int 1], []⟩)] [(2, ⟨none, [], []⟩)]
      1 ⟨some "boom", [], []⟩ "boom" boomOp (PyExc.opError "boom")
      rfl (by decide) rfl rfl rfl
      (fun p hp => by
        simp only [List.mem_singleton] at hp
        subst hp
        exact ⟨PyVal.pytuple [PyAtom.int 1], rfl⟩)⟩

/-- Witness for the C10 theorem at `demoWorker`: uuid 5 is added twice. -/
theorem worker_add_task_same_id_witness :
    (demoWorker.tasks.map Prod.fst).Nodup
    ∧ (((demoWorker.add_task 5 none [] []).add_task 5 (some "add")
          [PyAtom.int 2, PyAtom.int 3] []).tasks.map Prod.fst
        = (demoWorker.add_task 5 none [] []).tasks.map Prod.fst
      ∧ ((demoWorker.add_task 5 none [] []).add_task 5 (some "add")
          [PyAtom.int 2, PyAtom.int 3] []).tasks.filter (fun p => p.1 = 5)
        = [(5, ⟨some "add", [PyAtom.int 2, PyAtom.int 3], []⟩)]
      ∧ (((demoWorker.add_task 5 none [] []).add_task 5 (some "add")
            [PyAtom.int 2, PyAtom.int 3] []).run_tasks.exc = none →
          ∃ v, ((demoWorker.add_task 5 none [] []).add_task 5 (some "add")
              [PyAtom.int 2, PyAtom.int 3] []).taskResult
              ⟨some "add", [PyAtom.int 2, PyAtom.int 3], []⟩ = Except.ok v ∧
            ((demoWorker.add_task 5 none [] []).add_task 5 (some "add")
              [PyAtom.int 2, PyAtom.int 3] []).run_tasks.emitted.filter
              (fun q => q.1 = 5) = [(5, v)])) :=
  ⟨by decide, worker_add_task_same_id demoWorker 5 none (some "add")
    [] [PyAtom.int 2, PyAtom.int 3] [] [] (by decide)⟩

/-!
## The claims about the manager (modelled from the spec)
-/

/-- Claim C2 (spec-modelled): while a batch is running, a task submitted via
`add_task` is placed in `pending` (and `queued` is untouched); a `dispatch()`
call starts no new work and emits nothing; and when the running batch
finishes, the pending tasks are promoted — only at that point, i.e. exactly
when `running` has been emptied — and are dispatched automatically as the
new running batch with no further external `dispatch()` call and no new
`run_tasks_started` signal. -/
theorem manager_busy_add_and_auto_drain (s : TaskManagerBase) (t : MgrTask)
    (hb : s.busy = true) :
    ((mgrStep s (MgrAction.addTask t)).1.pending = s.pending ++ [(s.nextId, t)]
      ∧ (mgrStep s (MgrAction.addTask t)).1.queued = s.queued)
    ∧ mgrStep s MgrAction.dispatch = (s, [])
    ∧ (s.queued = [] → s.pending ≠ [] →
        ((mgrStep s MgrAction.batchFinish).1.running = s.pending
          ∧ (mgrStep s MgrAction.batchFinish).1.pending = []
          ∧ (mgrStep s MgrAction.batchFinish).1.busy = true
          ∧ MgrEvent.started ∉ (mgrStep s MgrAction.batchFinish).2
          ∧ MgrEvent.finished ∉ (mgrStep s MgrAction.batchFinish).2)) := by
  refine ⟨?_, ?_, ?_⟩
  · simp [mgrStep, hb]
  · simp [mgrStep, hb]
  · intro hq hp
    have hbacklog : (s.queued ++ s.pending).isEmpty = false := by
      rw [hq]
      simpa [List.isEmpty_iff] using hp
    have hstep : mgrStep s MgrAction.batchFinish
        = ({ s with queued := [], pending := [], running := s.queued ++ s.pending },
          s.running.map (fun p => MgrEvent.taskCompleted p.1)) := by
      simp [mgrStep, hb, hbacklog]
    rw [hstep]
    refine ⟨by rw [hq]; simp, rfl, ?_, ?_, ?_⟩
    · simp [TaskManagerBase.busy, List.isEmpty_iff, hq, hp]
    · intro hmem
      rcases List.mem_map.mp hmem with ⟨p, _, hpe⟩
      cases hpe
    · intro hmem
      rcases List.mem_map.mp hmem with ⟨p, _, hpe⟩
      cases hpe

/-!
## Signal-counting lemmas for the manager
-/

theorem mgrRun_cons (s : TaskManagerBase) (a : MgrAction) (rest : List MgrAction) :
    mgrRun s (a :: rest)
      = ((mgrRun (mgrStep s a).1 rest).1,
        (mgrStep s a).2 ++ (mgrRun (mgrStep s a).1 rest).2) := rfl

theorem busy_addTask (s : TaskManagerBase) (t : MgrTask) :
    (mgrStep s (MgrAction.addTask t)).1.busy = s.busy := by
  simp only [mgrStep]
  split <;> rfl

theorem addTask_events (s : TaskManagerBase) (t : MgrTask) :
    (mgrStep s (MgrAction.addTask t)).2 = [MgrEvent.submitted s.nextId] := by
  simp only [mgrStep]
  split <;> rfl

theorem dispatch_busy_noop (s : TaskManagerBase) (hb : s.busy = true) :
    mgrStep s MgrAction.dispatch = (s, []) := by
  simp [mgrStep, hb]

theorem batchFinish_busy_chain (s : TaskManagerBase) (hb : s.busy = true)
    (hbl : (s.queued ++ s.pending).isEmpty = false) :
    mgrStep s MgrAction.batchFinish
      = ({ s with queued := [], pending := [], running := s.queued ++ s.pending },
        s.running.map (fun p => MgrEvent.taskCompleted p.1)) := by
  simp [mgrStep, hb, hbl]

theorem batchFinish_busy_final (s : TaskManagerBase) (hb : s.busy = true)
    (hbl : (s.queued ++ s.pending).isEmpty = true) :
    mgrStep s MgrAction.batchFinish
      = ({ s with running := [] },
        s.running.map (fun p => MgrEvent.taskCompleted p.1) ++ [MgrEvent.finished]) := by
  simp [mgrStep, hb, hbl]

theorem count_started_completions (l : List (Nat × MgrTask)) :
    (l.map (fun p => MgrEvent.taskCompleted p.1)).count MgrEvent.started = 0 := by
  apply List.count_eq_zero.mpr
  intro h
  rcases List.mem_map.mp h with ⟨p, _, hp⟩
  cases hp

theorem count_finished_completions (l : List (Nat × MgrTask)) :
    (l.map (fun p => MgrEvent.taskCompleted p.1)).count MgrEvent.finished = 0 := by
  apply List.count_eq_zero.mpr
  intro h
  rcases List.mem_map.mp h with ⟨p, _, hp⟩
  cases hp

/-- Over one drain cycle — every intermediate state still running, the final
state idle — a manager starting in the running state emits no
`run_tasks_started` and exactly one `run_tasks_finished`. -/
theorem drain_cycle_counts : ∀ (acts : List MgrAction) (s : TaskManagerBase),
    s.busy = true → chainBusy s acts = true →
    (mgrRun s acts).1.busy = false →
    (mgrRun s acts).2.count MgrEvent.started = 0
    ∧ (mgrRun s acts).2.count MgrEvent.finished = 1 := by
  intro acts
  induction acts with
  | nil =>
    intro s hb _ hf
    simp only [mgrRun] at hf
    rw [hb] at hf
    cases hf
  | cons a rest ih =>
    intro s hb hc hf
    simp only [chainBusy, Bool.and_eq_true, Bool.or_eq_true] at hc
    rw [mgrRun_cons] at hf
    rw [mgrRun_cons]
    cases rest with
    | nil =>
      simp only [mgrRun] at hf ⊢
      cases a with
      | addTask t =>
        exfalso
        have := busy_addTask s t
        rw [hf, hb] at this
        cases this
      | dispatch =>
        exfalso
        rw [dispatch_busy_noop s hb] at hf
        rw [hb] at hf
        cases hf
      | batchFinish =>
        cases hbl : (s.queued ++ s.pending).isEmpty with
        | true =>
          rw [batchFinish_busy_final s hb hbl]
          simp only [List.append_nil]
          constructor
          · rw [List.count_append, count_started_completions]
            simp
          · rw [List.count_append, count_finished_completions]
            simp
        | false =>
          exfalso
          rw [batchFinish_busy_chain s hb hbl] at hf
          simp only [TaskManagerBase.busy, Bool.not_eq_false'] at hf
          rw [hf] at hbl
          cases hbl
    | cons b rest' =>
      have hbusy1 : (mgrStep s a).1.busy = true := by
        rcases hc.1 with h | h
        · simp at h
        · exact h
      have ihres := ih (mgrStep s a).1 hbusy1 hc.2 hf
      have hev : (mgrStep s a).2.count MgrEvent.started = 0
          ∧ (mgrStep s a).2.count MgrEvent.finished = 0 := by
        cases a with
        | addTask t =>
          rw [addTask_events]
          constructor <;> simp [List.count_cons]
        | dispatch =>
          rw [dispatch_busy_noop s hb]
          constructor <;> rfl
        | batchFinish =>
          cases hbl : (s.queued ++ s.pending).isEmpty with
          | true =>
            exfalso
            rw [batchFinish_busy_final s hb hbl] at hbusy1
            simp [TaskManagerBase.busy] at hbusy1
          | false =>
            rw [batchFinish_busy_chain s hb hbl]
            exact ⟨count_started_completions _, count_finished_completions _⟩
      rw [List.count_append, List.count_append, hev.1, hev.2, ihres.1, ihres.2]
      exact ⟨rfl, rfl⟩

/-- Claim C1 (spec-modelled): for a single external `dispatch()` call that
starts work, exactly one `run_tasks_started` and exactly one
`run_tasks_finished` are emitted over the whole drain cycle — every
intermediate state still running (internal auto-chained sub-batches
included), the final state idle — no matter which `add_task`/`dispatch`
calls and worker batch-finished events occur in between. -/
theorem manager_signals_once_per_dispatch (s : TaskManagerBase)
    (rest : List MgrAction) (hidle : s.busy = false) (hq : s.queued ≠ [])
    (hchain : chainBusy s (MgrAction.dispatch :: rest) = true)
    (hdone : (mgrRun s (MgrAction.dispatch :: rest)).1.busy = false) :
    (mgrRun s (MgrAction.dispatch :: rest)).2.count MgrEvent.started = 1
    ∧ (mgrRun s (MgrAction.dispatch :: rest)).2.count MgrEvent.finished = 1 := by
  have hqe : s.queued.isEmpty = false := by
    simpa [List.isEmpty_iff] using hq
  have hfire : mgrStep s MgrAction.dispatch
      = ({ s with queued := [], running := s.queued }, [MgrEvent.started]) := by
    simp [mgrStep, hidle, hqe]
  have hbusy1 : ({ s with queued := [], running := s.queued } :
      TaskManagerBase).busy = true := by
    simp [TaskManagerBase.busy, List.isEmpty_iff, hq]
  simp only [chainBusy, Bool.and_eq_true] at hchain
  have hchain2 : chainBusy (mgrStep s MgrAction.dispatch).1 rest = true := hchain.2
  rw [hfire] at hchain2
  rw [mgrRun_cons] at hdone
  rw [hfire] at hdone
  have hcounts := drain_cycle_counts rest
    { s with queued := [], running := s.queued } hbusy1 hchain2 hdone
  rw [mgrRun_cons, hfire]
  constructor
  · rw [List.count_append, hcounts.1]
    simp [List.count_cons]
  · rw [List.count_append, hcounts.2]
    simp [List.count_cons]

/-- A concrete manager task for the manager witnesses. -/
def demoTask : MgrTask := ⟨some "get_something", true, []⟩

/-- A concrete busy manager: two tasks running, one pending. -/
def demoBusyMgr : TaskManagerBase :=
  ⟨3, [], [(2, demoTask)], [(0, demoTask), (1, demoTask)]⟩

/-- A concrete idle manager with two queued tasks. -/
def demoIdleMgr : TaskManagerBase := ⟨2, [(0, demoTask), (1, demoTask)], [], []⟩

/-- The actions following the external dispatch in the C1 witness: a
mid-batch submission and the two batch-finished events draining the backlog. -/
def demoRest : List MgrAction :=
  [MgrAction.addTask demoTask, MgrAction.batchFinish, MgrAction.batchFinish]

/-- Witness for the C2 theorem at `demoBusyMgr`. -/
theorem manager_busy_add_and_auto_drain_witness :
    demoBusyMgr.busy = true
    ∧ (((mgrStep demoBusyMgr (MgrAction.addTask demoTask)).1.pending
          = demoBusyMgr.pending ++ [(demoBusyMgr.nextId, demoTask)]
        ∧ (mgrStep demoBusyMgr (MgrAction.addTask demoTask)).1.queued
          = demoBusyMgr.queued)
      ∧ mgrStep demoBusyMgr MgrAction.dispatch = (demoBusyMgr, [])
      ∧ (demoBusyMgr.queued = [] → demoBusyMgr.pending ≠ [] →
          ((mgrStep demoBusyMgr MgrAction.batchFinish).1.running
              = demoBusyMgr.pending
            ∧ (mgrStep demoBusyMgr MgrAction.batchFinish).1.pending = []
            ∧ (mgrStep demoBusyMgr MgrAction.batchFinish).1.busy = true
            ∧ MgrEvent.started ∉ (mgrStep demoBusyMgr MgrAction.batchFinish).2
            ∧ MgrEvent.finished ∉ (mgrStep demoBusyMgr MgrAction.batchFinish).2))) :=
  ⟨rfl, manager_busy_add_and_auto_drain demoBusyMgr demoTask rfl⟩

/-- Witness for the C1 theorem: dispatching `demoIdleMgr` and draining it
through one auto-chained sub-batch fires each top-level signal once. -/
theorem manager_signals_once_per_dispatch_witness :
    demoIdleMgr.busy = false
    ∧ demoIdleMgr.queued ≠ []
    ∧ chainBusy demoIdleMgr (MgrAction.dispatch :: demoRest) = true
    ∧ (mgrRun demoIdleMgr (MgrAction.dispatch :: demoRest)).1.busy = false
    ∧ ((mgrRun demoIdleMgr (MgrAction.dispatch :: demoRest)).2.count
          MgrEvent.started = 1
      ∧ (mgrRun demoIdleMgr (MgrAction.dispatch :: demoRest)).2.count
          MgrEvent.finished = 1) :=
  ⟨rfl, by decide, by decide, by decide,
    manager_signals_once_per_dispatch demoIdleMgr demoRest rfl (by decide)
      (by decide) (by decide)⟩

/-!
## The partition invariant of the manager collections
-/

/-- The ids of all outstanding tasks, in collection order
(`queued`, then `pending`, then `running`). -/
def allIds (s : TaskManagerBase) : List Nat :=
  (s.queued ++ s.pending ++ s.running).map Prod.fst

/-- The inductive invariant tying a manager state to the events emitted so
far: outstanding ids are below the freshness counter and pairwise distinct,
an id is outstanding exactly when it was submitted and its result has not
been delivered, and no result is ever delivered twice. -/
def MgrInv (s : TaskManagerBase) (E : List MgrEvent) : Prop :=
  (∀ id ∈ allIds s, id < s.nextId)
  ∧ (∀ id, MgrEvent.submitted id ∈ E → id < s.nextId)
  ∧ (allIds s).Nodup
  ∧ (∀ id, id ∈ allIds s
      ↔ (MgrEvent.submitted id ∈ E ∧ MgrEvent.taskCompleted id ∉ E))
  ∧ (∀ id, E.count (MgrEvent.taskCompleted id) ≤ 1)
  ∧ (∀ id, MgrEvent.taskCompleted id ∈ E → MgrEvent.submitted id ∈ E)

theorem perm_snoc_out {α : Type} (u v : List α) (x : α) :
    List.Perm (u ++ [x] ++ v) ((u ++ v) ++ [x]) := by
  have h2 := (List.perm_append_comm :
    List.Perm ([x] ++ v) (v ++ [x])).append_left u
  have e1 : u ++ [x] ++ v = u ++ ([x] ++ v) := by simp
  have e2 : u ++ (v ++ [x]) = (u ++ v) ++ [x] := by simp
  rw [e1, ← e2]
  exact h2

theorem mgrInv_addTask (s : TaskManagerBase) (E : List MgrEvent) (t : MgrTask)
    (h : MgrInv s E) :
    MgrInv (mgrStep s (MgrAction.addTask t)).1
      (E ++ (mgrStep s (MgrAction.addTask t)).2) := by
  obtain ⟨h1, h2, h3, h4, h5, h6⟩ := h
  rw [addTask_events]
  have hperm : List.Perm (allIds (mgrStep s (MgrAction.addTask t)).1)
      (allIds s ++ [s.nextId]) := by
    simp only [mgrStep]
    split
    · show List.Perm ((s.queued ++ (s.pending ++ [(s.nextId, t)]) ++ s.running).map
        Prod.fst) _
      have hshape : s.queued ++ (s.pending ++ [(s.nextId, t)]) ++ s.running
          = (s.queued ++ s.pending) ++ [(s.nextId, t)] ++ s.running := by simp
      rw [hshape]
      have hp := perm_snoc_out (s.queued ++ s.pending) s.running (s.nextId, t)
      have := hp.map (Prod.fst : Nat × MgrTask → Nat)
      simpa [allIds] using this
    · show List.Perm (((s.queued ++ [(s.nextId, t)]) ++ s.pending ++ s.running).map
        Prod.fst) _
      have hshape : (s.queued ++ [(s.nextId, t)]) ++ s.pending ++ s.running
          = s.queued ++ [(s.nextId, t)] ++ (s.pending ++ s.running) := by simp
      rw [hshape]
      have hp := perm_snoc_out s.queued (s.pending ++ s.running) (s.nextId, t)
      have := hp.map (Prod.fst : Nat × MgrTask → Nat)
      simpa [allIds] using this
  have hnext : (mgrStep s (MgrAction.addTask t)).1.nextId = s.nextId + 1 := by
    simp only [mgrStep]
    split <;> rfl
  have hmem : ∀ id, id ∈ allIds (mgrStep s (MgrAction.addTask t)).1
      ↔ (id ∈ allIds s ∨ id = s.nextId) := by
    intro id
    rw [hperm.mem_iff]
    simp
  have hfresh : s.nextId ∉ allIds s := fun hin => absurd (h1 _ hin) (by omega)
  have hsubE : ∀ id, MgrEvent.submitted id ∈ E ++ [MgrEvent.submitted s.nextId]
      ↔ (MgrEvent.submitted id ∈ E ∨ id = s.nextId) := by
    intro id
    simp [List.mem_append]
  have hcompE : ∀ id, MgrEvent.taskCompleted id
      ∈ E ++ [MgrEvent.submitted s.nextId] ↔ MgrEvent.taskCompleted id ∈ E := by
    intro id
    simp [List.mem_append]
  have hNotCompFresh : MgrEvent.taskCompleted s.nextId ∉ E := by
    intro hc
    exact absurd (h2 _ (h6 _ hc)) (by omega)
  refine ⟨?_, ?_, ?_, ?_, ?_, ?_⟩
  · intro id hin
    rw [hnext]
    rcases (hmem id).mp hin with hold | rfl
    · exact Nat.lt_succ_of_lt (h1 _ hold)
    · exact Nat.lt_succ_self _
  · intro id hin
    rw [hnext]
    rcases (hsubE id).mp hin with hold | rfl
    · exact Nat.lt_succ_of_lt (h2 _ hold)
    · exact Nat.lt_succ_self _
  · refine hperm.symm.nodup ?_
    simp only [List.nodup_append, List.nodup_cons, List.nodup_nil]
    exact ⟨h3, by simp, by
      intro a ha hb
      simp only [List.mem_singleton] at hb
      subst hb
      exact hfresh ha⟩
  · intro id
    rw [hmem id, hsubE id, hcompE id]
    by_cases hid : id = s.nextId
    · subst hid
      constructor
      · intro _
        exact ⟨Or.inr rfl, hNotCompFresh⟩
      · intro _
        exact Or.inr rfl
    · constructor
      · rintro (hold | h0)
        · have := (h4 id).mp hold
          exact ⟨Or.inl this.1, this.2⟩
        · exact absurd h0 hid
      · rintro ⟨hs | h0, hc⟩
        · exact Or.inl ((h4 id).mpr ⟨hs, hc⟩)
        · exact absurd h0 hid
  · intro id
    rw [List.count_append]
    have : List.count (MgrEvent.taskCompleted id) [MgrEvent.submitted s.nextId]
        = 0 := by simp
    rw [this]
    simpa using h5 id
  · intro id hin
    rw [hcompE id] at hin
    exact List.mem_append_left _ (h6 _ hin)

theorem mgrInv_dispatch (s : TaskManagerBase) (E : List MgrEvent)
    (h : MgrInv s E) :
    MgrInv (mgrStep s MgrAction.dispatch).1
      (E ++ (mgrStep s MgrAction.dispatch).2) := by
  obtain ⟨h1, h2, h3, h4, h5, h6⟩ := h
  by_cases hc : (!s.busy && !s.queued.isEmpty) = true
  · have hc' := hc
    rw [Bool.and_eq_true] at hc'
    have hb : s.busy = false := by simpa using hc'.1
    have hrun : s.running = [] := by
      have he : s.running.isEmpty = true := by
        simpa [TaskManagerBase.busy] using hb
      simpa [List.isEmpty_iff] using he
    have hstep : mgrStep s MgrAction.dispatch
        = ({ s with queued := [], running := s.queued }, [MgrEvent.started]) := by
      simp [mgrStep, hc]
    rw [hstep]
    have hidsOld : allIds s = (s.queued ++ s.pending).map Prod.fst := by
      simp [allIds, hrun]
    have hidsNew : allIds ({ s with queued := [], running := s.queued } :
        TaskManagerBase) = (s.pending ++ s.queued).map Prod.fst := by
      simp [allIds]
    have hperm : List.Perm ((s.pending ++ s.queued).map Prod.fst)
        ((s.queued ++ s.pending).map Prod.fst) :=
      (List.perm_append_comm).map _
    have hsubE : ∀ id, MgrEvent.submitted id ∈ E ++ [MgrEvent.started]
        ↔ MgrEvent.submitted id ∈ E := by
      intro id
      simp [List.mem_append]
    have hcompE : ∀ id, MgrEvent.taskCompleted id ∈ E ++ [MgrEvent.started]
        ↔ MgrEvent.taskCompleted id ∈ E := by
      intro id
      simp [List.mem_append]
    refine ⟨?_, ?_, ?_, ?_, ?_, ?_⟩
    · intro id hin
      rw [hidsNew] at hin
      exact h1 id (by rw [hidsOld]; exact hperm.mem_iff.mp hin)
    · intro id hin
      exact h2 id ((hsubE id).mp hin)
    · rw [hidsNew]
      refine hperm.symm.nodup ?_
      rw [← hidsOld]
      exact h3
    · intro id
      rw [hidsNew, hperm.mem_iff, ← hidsOld, hsubE, hcompE]
      exact h4 id
    · intro id
      rw [List.count_append]
      have : List.count (MgrEvent.taskCompleted id) [MgrEvent.started] = 0 := by
        simp
      rw [this]
      simpa using h5 id
    · intro id hin
      exact List.mem_append_left _ (h6 id ((hcompE id).mp hin))
  · have hstep : mgrStep s MgrAction.dispatch = (s, []) := by
      simp only [mgrStep, hc]
      simp
    rw [hstep]
    simpa using ⟨h1, h2, h3, h4, h5, h6⟩

theorem mgrInv_batchFinish (s : TaskManagerBase) (E : List MgrEvent)
    (h : MgrInv s E) :
    MgrInv (mgrStep s MgrAction.batchFinish).1
      (E ++ (mgrStep s MgrAction.batchFinish).2) := by
  obtain ⟨h1, h2, h3, h4, h5, h6⟩ := h
  by_cases hb : s.busy = true
  case neg =>
    have hb' : s.busy = false := by simpa using hb
    have hstep : mgrStep s MgrAction.batchFinish = (s, []) := by
      simp [mgrStep, hb']
    rw [hstep]
    simpa using ⟨h1, h2, h3, h4, h5, h6⟩
  case pos =>
  have hidsSplit : allIds s
      = (s.queued ++ s.pending).map Prod.fst ++ s.running.map Prod.fst := by
    simp [allIds]
  have hn3 : ((s.queued ++ s.pending).map Prod.fst
      ++ s.running.map Prod.fst).Nodup := by
    rw [← hidsSplit]
    exact h3
  have hnqp : ((s.queued ++ s.pending).map Prod.fst).Nodup := hn3.of_append_left
  have hnr : (s.running.map Prod.fst).Nodup := hn3.of_append_right
  have hdisj : ∀ x ∈ (s.queued ++ s.pending).map Prod.fst,
      x ∉ s.running.map Prod.fst := by
    intro x hx hr
    exact (List.nodup_append.mp hn3).2.2 hx hr
  have hCshape : s.running.map (fun p => MgrEvent.taskCompleted p.1)
      = (s.running.map Prod.fst).map MgrEvent.taskCompleted := by
    rw [List.map_map]
    rfl
  have hsubC : ∀ id, MgrEvent.submitted id
      ∉ s.running.map (fun p => MgrEvent.taskCompleted p.1) := by
    intro id hin
    rcases List.mem_map.mp hin with ⟨p, _, hp⟩
    cases hp
  have hcompC : ∀ id, (MgrEvent.taskCompleted id
      ∈ s.running.map (fun p => MgrEvent.taskCompleted p.1))
      ↔ id ∈ s.running.map Prod.fst := by
    intro id
    rw [hCshape]
    constructor
    · intro hin
      rcases List.mem_map.mp hin with ⟨x, hx, hxe⟩
      cases hxe
      exact hx
    · intro hin
      exact List.mem_map.mpr ⟨id, hin, rfl⟩
  have hcountC : ∀ id, (s.running.map
      (fun p => MgrEvent.taskCompleted p.1)).count (MgrEvent.taskCompleted id)
      = (s.running.map Prod.fst).count id := by
    intro id
    rw [hCshape]
    exact List.count_map_of_injective _ MgrEvent.taskCompleted
      (fun a b hab => by cases hab; rfl) id
  have hcount_le : ∀ id, E.count (MgrEvent.taskCompleted id)
      + (s.running.map Prod.fst).count id ≤ 1 := by
    intro id
    by_cases hr : id ∈ s.running.map Prod.fst
    · have hidall : id ∈ allIds s := by
        rw [hidsSplit]
        exact List.mem_append_right _ hr
      have hnc : MgrEvent.taskCompleted id ∉ E := ((h4 id).mp hidall).2
      rw [List.count_eq_zero.mpr hnc]
      simpa using List.nodup_iff_count_le_one.mp hnr id
    · rw [List.count_eq_zero.mpr hr]
      simpa using h5 id
  cases hbl : (s.queued ++ s.pending).isEmpty with
  | true =>
    have hqp : s.queued ++ s.pending = [] := by
      simpa [List.isEmpty_iff] using hbl
    obtain ⟨hq, hp⟩ := List.append_eq_nil.mp hqp
    rw [batchFinish_busy_final s hb hbl]
    have hidsNew : allIds ({ s with running := [] } : TaskManagerBase) = [] := by
      simp [allIds, hq, hp]
    have hidsOld : allIds s = s.running.map Prod.fst := by
      rw [hidsSplit, hq, hp]
      simp
    have hsubE : ∀ id, (MgrEvent.submitted id
        ∈ E ++ (s.running.map (fun p => MgrEvent.taskCompleted p.1)
          ++ [MgrEvent.finished])) ↔ MgrEvent.submitted id ∈ E := by
      intro id
      simp only [List.mem_append, List.mem_singleton]
      constructor
      · rintro (he | hc | hf)
        · exact he
        · exact absurd hc (hsubC id)
        · cases hf
      · exact fun he => Or.inl he
    have hcompE : ∀ id, (MgrEvent.taskCompleted id
        ∈ E ++ (s.running.map (fun p => MgrEvent.taskCompleted p.1)
          ++ [MgrEvent.finished]))
        ↔ (MgrEvent.taskCompleted id ∈ E ∨ id ∈ s.running.map Prod.fst) := by
      intro id
      simp only [List.mem_append, List.mem_singleton]
      constructor
      · rintro (he | hc | hf)
        · exact Or.inl he
        · exact Or.inr ((hcompC id).mp hc)
        · cases hf
      · rintro (he | hr)
        · exact Or.inl he
        · exact Or.inr (Or.inl ((hcompC id).mpr hr))
    refine ⟨?_, ?_, ?_, ?_, ?_, ?_⟩
    · intro id hin
      rw [hidsNew] at hin
      cases hin
    · intro id hin
      exact h2 id ((hsubE id).mp hin)
    · rw [hidsNew]
      exact List.nodup_nil
    · intro id
      rw [hidsNew]
      constructor
      · intro h0
        cases h0
      · rintro ⟨hsub, hcomp⟩
        exfalso
        rw [hsubE id] at hsub
        have hidnot : MgrEvent.taskCompleted id ∉ E ∧
            id ∉ s.running.map Prod.fst := by
          constructor
          · intro hcE
            exact hcomp ((hcompE id).mpr (Or.inl hcE))
          · intro hrm
            exact hcomp ((hcompE id).mpr (Or.inr hrm))
        have := (h4 id).mpr ⟨hsub, hidnot.1⟩
        rw [hidsOld] at this
        exact hidnot.2 this
    · intro id
      rw [List.count_append, List.count_append, hcountC id]
      have hzf : List.count (MgrEvent.taskCompleted id) [MgrEvent.finished]
          = 0 := by simp
      rw [hzf]
      have := hcount_le id
      omega
    · intro id hin
      rw [hcompE id] at hin
      rcases hin with he | hr
      · exact List.mem_append_left _ (h6 id he)
      · have hidall : id ∈ allIds s := by rw [hidsOld]; exact hr
        exact List.mem_append_left _ ((h4 id).mp hidall).1
  | false =>
    rw [batchFinish_busy_chain s hb hbl]
    have hidsNew : allIds
        ({ s with queued := [], pending := [], running := s.queued ++ s.pending }
          : TaskManagerBase)
        = (s.queued ++ s.pending).map Prod.fst := by
      simp [allIds]
    have hsubE : ∀ id, (MgrEvent.submitted id
        ∈ E ++ s.running.map (fun p => MgrEvent.taskCompleted p.1))
        ↔ MgrEvent.submitted id ∈ E := by
      intro id
      simp only [List.mem_append]
      constructor
      · rintro (he | hc)
        · exact he
        · exact absurd hc (hsubC id)
      · exact fun he => Or.inl he
    have hcompE : ∀ id, (MgrEvent.taskCompleted id
        ∈ E ++ s.running.map (fun p => MgrEvent.taskCompleted p.1))
        ↔ (MgrEvent.taskCompleted id ∈ E ∨ id ∈ s.running.map Prod.fst) := by
      intro id
      simp only [List.mem_append]
      constructor
      · rintro (he | hc)
        · exact Or.inl he
        · exact Or.inr ((hcompC id).mp hc)
      · rintro (he | hr)
        · exact Or.inl he
        · exact Or.inr ((hcompC id).mpr hr)
    refine ⟨?_, ?_, ?_, ?_, ?_, ?_⟩
    · intro id hin
      rw [hidsNew] at hin
      refine h1 id ?_
      rw [hidsSplit]
      exact List.mem_append_left _ hin
    · intro id hin
      exact h2 id ((hsubE id).mp hin)
    · rw [hidsNew]
      exact hnqp
    · intro id
      rw [hidsNew, hsubE id]
      constructor
      · intro hin
        have hidall : id ∈ allIds s := by
          rw [hidsSplit]
          exact List.mem_append_left _ hin
        obtain ⟨hsub, hcomp⟩ := (h4 id).mp hidall
        refine ⟨hsub, ?_⟩
        rw [hcompE id]
        rintro (he | hr)
        · exact hcomp he
        · exact hdisj id hin hr
      · rintro ⟨hsub, hcomp⟩
        rw [hcompE id] at hcomp
        have hcE : MgrEvent.taskCompleted id ∉ E := fun he => hcomp (Or.inl he)
        have hrm : id ∉ s.running.map Prod.fst := fun hr => hcomp (Or.inr hr)
        have := (h4 id).mpr ⟨hsub, hcE⟩
        rw [hidsSplit] at this
        rcases List.mem_append.mp this with hin | hin
        · exact hin
        · exact absurd hin hrm
    · intro id
      rw [List.count_append, hcountC id]
      exact hcount_le id
    · intro id hin
      rw [hcompE id] at hin
      rcases hin with he | hr
      · exact List.mem_append_left _ (h6 id he)
      · have hidall : id ∈ allIds s := by
          rw [hidsSplit]
          exact List.mem_append_right _ hr
        exact List.mem_append_left _ ((h4 id).mp hidall).1

theorem mgrStep_inv (s : TaskManagerBase) (E : List MgrEvent) (a : MgrAction)
    (h : MgrInv s E) : MgrInv (mgrStep s a).1 (E ++ (mgrStep s a).2) := by
  cases a with
  | addTask t => exact mgrInv_addTask s E t h
  | dispatch => exact mgrInv_dispatch s E h
  | batchFinish => exact mgrInv_batchFinish s E h

theorem mgrRun_inv : ∀ (acts : List MgrAction) (s : TaskManagerBase)
    (E : List MgrEvent), MgrInv s E →
    MgrInv (mgrRun s acts).1 (E ++ (mgrRun s acts).2) := by
  intro acts
  induction acts with
  | nil =>
    intro s E h
    simpa [mgrRun] using h
  | cons a rest ih =>
    intro s E h
    rw [mgrRun_cons]
    have hstep := mgrStep_inv s E a h
    have hrest := ih (mgrStep s a).1 (E ++ (mgrStep s a).2) hstep
    simpa [List.append_assoc] using hrest

theorem mgrInv_init : MgrInv TaskManagerBase.init [] := by
  refine ⟨?_, ?_, ?_, ?_, ?_, ?_⟩ <;>
    simp [allIds, TaskManagerBase.init]

/-- Claim C5 (spec-modelled): for every sequence of `add_task`/`dispatch()`
calls and worker batch-finished events driving a fresh manager, the
`queued`, `pending` and `running` collections stay pairwise disjoint with no
duplicate ids, and an id lies in one of them exactly when it was submitted
and its result has not yet been delivered — after delivery it is in none of
the collections, and no result is delivered more than once. -/
theorem manager_collections_partition (acts : List MgrAction) :
    (((mgrRun TaskManagerBase.init acts).1.queued
        ++ (mgrRun TaskManagerBase.init acts).1.pending
        ++ (mgrRun TaskManagerBase.init acts).1.running).map Prod.fst).Nodup
    ∧ (∀ id, ¬(id ∈ (mgrRun TaskManagerBase.init acts).1.queued.map Prod.fst
        ∧ id ∈ (mgrRun TaskManagerBase.init acts).1.pending.map Prod.fst))
    ∧ (∀ id, ¬(id ∈ (mgrRun TaskManagerBase.init acts).1.queued.map Prod.fst
        ∧ id ∈ (mgrRun TaskManagerBase.init acts).1.running.map Prod.fst))
    ∧ (∀ id, ¬(id ∈ (mgrRun TaskManagerBase.init acts).1.pending.map Prod.fst
        ∧ id ∈ (mgrRun TaskManagerBase.init acts).1.running.map Prod.fst))
    ∧ (∀ id, id ∈ ((mgrRun TaskManagerBase.init acts).1.queued
        ++ (mgrRun TaskManagerBase.init acts).1.pending
        ++ (mgrRun TaskManagerBase.init acts).1.running).map Prod.fst
      ↔ (MgrEvent.submitted id ∈ (mgrRun TaskManagerBase.init acts).2
        ∧ MgrEvent.taskCompleted id ∉ (mgrRun TaskManagerBase.init acts).2))
    ∧ (∀ id, (mgrRun TaskManagerBase.init acts).2.count
        (MgrEvent.taskCompleted id) ≤ 1) := by
  have h := mgrRun_inv acts TaskManagerBase.init [] mgrInv_init
  rw [List.nil_append] at h
  obtain ⟨_, _, h3, h4, h5, _⟩ := h
  have hsplit : allIds (mgrRun TaskManagerBase.init acts).1
      = ((mgrRun TaskManagerBase.init acts).1.queued.map Prod.fst
          ++ (mgrRun TaskManagerBase.init acts).1.pending.map Prod.fst)
        ++ (mgrRun TaskManagerBase.init acts).1.running.map Prod.fst := by
    simp [allIds]
  have h3s := h3
  rw [hsplit] at h3s
  have hd1 := (List.nodup_append.mp h3s).2.2
  have hqp := (List.nodup_append.mp h3s).1
  have hd0 := (List.nodup_append.mp hqp).2.2
  refine ⟨h3, ?_, ?_, ?_, h4, h5⟩
  · rintro id ⟨hq, hp⟩
    exact hd0 hq hp
  · rintro id ⟨hq, hr⟩
    exact hd1 (List.mem_append_left _ hq) hr
  · rintro id ⟨hp, hr⟩
    exact hd1 (List.mem_append_right _ hp) hr

end QtAppUtils
